import Mathlib

/-!
# Verification of the unused-css-scanner style-analysis engine

Shallow embedding of `src/index.ts` (class `UnusedCSSScanner`).

The engine parses a source file with the TypeScript compiler and then walks
the resulting syntax tree.  We embed the tree as the inductive type `Node`
below, carrying exactly the node kinds and fields that the engine's
traversals inspect; every other node kind is folded into `Node.other`,
which keeps only the child list (that is all `ts.forEachChild` exposes of
it).  `getStart`/`getEnd` offsets are carried only on property-assignment
nodes, the only nodes the engine asks positions of.  File contents are
embedded as `List Char` (the code manipulates JS strings by index).

Each engine function is translated clause by clause next to a comment
citing its source lines.
-/

/-- `interface StyleDefinition` (src/index.ts:7-11). -/
structure StyleDefinition where
  name : String
  startLine : Nat
  endLine : Nat
deriving Repr, DecidableEq

/-- `interface StyleUsage` (src/index.ts:13-18). -/
structure StyleUsage where
  file : String
  definedStyles : List StyleDefinition
  usedStyles : List String
  unusedStyles : List StyleDefinition
deriving Repr, DecidableEq

mutual
/-- A TypeScript syntax-tree node, restricted to the shapes the scanner's
visitors test for (`ts.isCallExpression`, `ts.isPropertyAccessExpression`,
`ts.isIdentifier`, `ts.isElementAccessExpression`, `ts.isStringLiteral`,
`ts.isObjectLiteralExpression`, `ts.isPropertyAssignment`,
`ts.isVariableDeclaration`, `ts.isSpreadAssignment`,
`ts.isJsxSpreadAttribute`).  A variable declaration without initializer is
`varDeclNoInit`; `other` covers every remaining node kind, of which the
visitors only ever see the children. `propAssign` carries the
`getStart()`/`getEnd()` character offsets of the whole property. -/
inductive Node where
  | ident (text : String)
  | strLit (text : String)
  | call (expr : Node) (args : NodeList)
  | propAccess (expr : Node) (nm : Node)
  | elemAccess (expr : Node) (arg : Node)
  | objLit (props : NodeList)
  | propAssign (nm : Node) (val : Node) (startPos endPos : Nat)
  | varDeclInit (nm : Node) (init : Node)
  | varDeclNoInit (nm : Node)
  | spreadAssign (expr : Node)
  | jsxSpread (expr : Node)
  | other (children : NodeList)

/-- A list of sibling nodes (object-literal properties, call arguments,
children of a node). -/
inductive NodeList where
  | nil
  | cons (hd : Node) (tl : NodeList)
end

/-- The plain list of a `NodeList`. -/
def NodeList.toList : NodeList → List Node
  | .nil => []
  | .cons x xs => x :: xs.toList

mutual
/-- All nodes of a subtree in visiting order: the node itself first, then the
subtrees of its children in `ts.forEachChild` order.  Every visitor in the
scanner has the shape `visit(node) { <handle node>; ts.forEachChild(node,
visit) }`, so the sequence of handled nodes is exactly this pre-order list. -/
def preNodes : Node → List Node
  | .ident t => [Node.ident t]
  | .strLit t => [Node.strLit t]
  | .call e args => Node.call e args :: (preNodes e ++ preNodesL args)
  | .propAccess e m => Node.propAccess e m :: (preNodes e ++ preNodes m)
  | .elemAccess e a => Node.elemAccess e a :: (preNodes e ++ preNodes a)
  | .objLit ps => Node.objLit ps :: preNodesL ps
  | .propAssign m v s e => Node.propAssign m v s e :: (preNodes m ++ preNodes v)
  | .varDeclInit m i => Node.varDeclInit m i :: (preNodes m ++ preNodes i)
  | .varDeclNoInit m => Node.varDeclNoInit m :: preNodes m
  | .spreadAssign e => Node.spreadAssign e :: preNodes e
  | .jsxSpread e => Node.jsxSpread e :: preNodes e
  | .other cs => Node.other cs :: preNodesL cs

/-- Pre-order lists of a sibling list, concatenated. -/
def preNodesL : NodeList → List Node
  | .nil => []
  | .cons x xs => preNodes x ++ preNodesL xs
end

/-- `f` applied to every element, results concatenated (the order in which a
visitor pushes results while walking a node list). -/
def collectList {α β : Type} (f : α → List β) : List α → List β
  | [] => []
  | x :: xs => f x ++ collectList f xs

/-- JS `Array.prototype.includes` / `Set.prototype.has` on strings. -/
def listHas (l : List String) (x : String) : Bool :=
  match l with
  | [] => false
  | y :: ys => if y = x then true else listHas ys x

/-- `getLineNumber` (src/index.ts:60-63): TS
`getLineAndCharacterOfPosition(pos).line` is the number of line breaks
before `pos`, and the method returns `line + 1`. -/
def getLineNumber (content : List Char) (pos : Nat) : Nat :=
  ((content.take pos).countP (fun c => c == '\n')) + 1

/-- The test in the `visit` of `extractDefinedStyles` (src/index.ts:87-97)
and of `removeUnusedStyles` (src/index.ts:330-339): a call expression whose
callee is `StyleSheet.create` (identifier dot identifier) and whose first
argument is an object literal; yields that literal's property list. -/
def createCallProps : Node → Option NodeList
  | .call callee args =>
    match callee with
    | .propAccess (.ident obj) (.ident meth) =>
      if obj = "StyleSheet" then
        if meth = "create" then
          match args with
          | .cons (.objLit props) _ => some props
          | _ => none
        else none
      else none
    | _ => none
  | _ => none

/-- One iteration of the `arg.properties.forEach` loop of
`extractDefinedStyles` (src/index.ts:98-113): push a `StyleDefinition` when
the property is a property assignment with an identifier name, nothing
otherwise. -/
def declHead (content : List Char) (p : Node) : List StyleDefinition :=
  match p with
  | .propAssign (.ident t) _ s e =>
    [{ name := t, startLine := getLineNumber content s,
       endLine := getLineNumber content e }]
  | _ => []

/-- The whole `arg.properties.forEach` loop of `extractDefinedStyles`. -/
def declsOfProps (content : List Char) : NodeList → List StyleDefinition
  | .nil => []
  | .cons p ps => declHead content p ++ declsOfProps content ps

/-- Definitions contributed by one visited node in `extractDefinedStyles`. -/
def declsHere (content : List Char) (n : Node) : List StyleDefinition :=
  match createCallProps n with
  | some props => declsOfProps content props
  | none => []

/-- `extractDefinedStyles` (src/index.ts:68-126): walk the whole tree,
pushing the identifier-keyed property assignments of every
`StyleSheet.create({...})` argument in visiting order. -/
def extractDefinedStyles (content : List Char) (ast : Node) : List StyleDefinition :=
  collectList (declsHere content) (preNodes ast)

/-- Aliases contributed by one node in the `collectAliases` pass of
`extractUsedStyles` (src/index.ts:145-156): a variable declaration whose
initializer is exactly the identifier `styles`, with an identifier name. -/
def aliasHere (n : Node) : List String :=
  match n with
  | .varDeclInit (.ident a) (.ident t) => if t = "styles" then [a] else []
  | _ => []

/-- First pass of `extractUsedStyles`: every alias in the file, in visiting
order (the code stores them in a `Set`, of which only membership is used). -/
def collectAliases (ast : Node) : List String :=
  collectList aliasHere (preNodes ast)

/-- Usages contributed by one node in the second pass of
`extractUsedStyles` (src/index.ts:161-219): the four recognized patterns,
each guarded by `objName === "styles" || aliases.has(objName)`. -/
def usageHere (aliases : List String) (n : Node) : List String :=
  (match n with
   | .propAccess (.ident obj) (.ident m) =>
     if obj = "styles" then [m]
     else if listHas aliases obj then [m] else []
   | _ => []) ++
  (match n with
   | .elemAccess (.ident obj) (.strLit s) =>
     if obj = "styles" then [s]
     else if listHas aliases obj then [s] else []
   | _ => []) ++
  (match n with
   | .spreadAssign (.propAccess (.ident obj) (.ident m)) =>
     if obj = "styles" then [m]
     else if listHas aliases obj then [m] else []
   | _ => []) ++
  (match n with
   | .jsxSpread (.propAccess (.ident obj) (.ident m)) =>
     if obj = "styles" then [m]
     else if listHas aliases obj then [m] else []
   | _ => [])

/-- First-occurrence deduplication with an accumulator of names already
seen: the insertion behaviour of a JS `Set`, whose `Array.from` preserves
first-insertion order. -/
def dedupFirstAux (seen : List String) : List String → List String
  | [] => []
  | x :: xs =>
    if listHas seen x then dedupFirstAux seen xs
    else x :: dedupFirstAux (seen ++ [x]) xs

/-- `Array.from(usedStyles)` for a `Set` filled in discovery order. -/
def dedupFirst (l : List String) : List String := dedupFirstAux [] l

/-- `extractUsedStyles` (src/index.ts:131-227): collect aliases over the
whole tree, then record the four usage patterns over the whole tree into a
`Set`, returned as a first-occurrence-ordered array. -/
def extractUsedStyles (ast : Node) : List String :=
  dedupFirst (collectList (usageHere (collectAliases ast)) (preNodes ast))

/-- `scanFile` (src/index.ts:284-306).  `shouldIgnore` is the ignore
predicate's verdict for the path; `readResult` is `readFile`'s result
(`none` on a read error).  `if (!content) return null` is falsy on both
`null` and the empty string, hence the explicit empty-content test.  The
`ast` argument stands for the tree the TypeScript parser builds from
`content` (both extractors parse the same content, hence one tree). -/
def scanFile (ignored : Bool) (readResult : Option (List Char))
    (filePath : String) (ast : Node) : Option StyleUsage :=
  if ignored then none
  else
    match readResult with
    | none => none
    | some content =>
      if content = [] then none
      else
        let definedStyles := extractDefinedStyles content ast
        let usedStyles := extractUsedStyles ast
        let unusedStyles := definedStyles.filter
          (fun s => !(listHas usedStyles s.name))
        some { file := filePath, definedStyles := definedStyles,
               usedStyles := usedStyles, unusedStyles := unusedStyles }

/-! ## The rewriter (`removeUnusedStyles`, src/index.ts:311-394) -/

/-- JS `\s` on the ASCII range (space, tab, line feed, carriage return,
vertical tab, form feed); the engine only ever applies it to source text. -/
def isJsWs (c : Char) : Bool :=
  c = ' ' || c = '\t' || c = '\n' || c = '\r' || c = '\x0b' || c = '\x0c'

/-- JS `s.substring(a, b)` for `a ≤ b` (both clamped to the length). -/
def jsSub (s : List Char) (a b : Nat) : List Char :=
  (s.take b).drop a

/-- Combined `/^\s*,/.test(t)` and `t.indexOf(",")` (src/index.ts:373-375):
when the text begins with whitespace and then a comma, that comma is also
the first comma, and its index is returned. -/
def leadingWsCommaIdx : List Char → Option Nat
  | [] => none
  | c :: cs =>
    if c = ',' then some 0
    else if isJsWs c then (leadingWsCommaIdx cs).map (· + 1)
    else none

/-- JS `t.lastIndexOf(",")` as an `Option` (`none` for `-1`). -/
def lastCommaIdx : List Char → Option Nat
  | [] => none
  | c :: cs =>
    match lastCommaIdx cs with
    | some i => some (i + 1)
    | none => if c = ',' then some 0 else none

/-- The separator handling of one removal (src/index.ts:368-383): prefer a
comma within the 10-character lookahead after `end`; otherwise extend
`start` back to a comma within the 10-character lookbehind.  Both windows
are cut from the ORIGINAL content, exactly as the code does.
`start - 10` in `Nat` is JS `Math.max(0, start - 10)`. -/
def adjustMod (content : List Char) (m : Nat × Nat) : Nat × Nat :=
  let start := m.1
  let e := m.2
  let afterText := jsSub content e (e + 10)
  match leadingWsCommaIdx afterText with
  | some k => (start, e + k + 1)
  | none =>
    let beforeText := jsSub content (start - 10) start
    match lastCommaIdx beforeText with
    | some ci => (start - (beforeText.length - ci), e)
    | none => (start, e)

/-- One iteration of the removal loop (src/index.ts:367-386):
`newContent = newContent.substring(0, start) + newContent.substring(end)`
with the window-adjusted interval. -/
def spliceStep (content acc : List Char) (m : Nat × Nat) : List Char :=
  let a := adjustMod content m
  acc.take a.1 ++ acc.drop a.2

/-- The whole removal loop over the sorted modification list. -/
def applyMods (content : List Char) (mods : List (Nat × Nat)) : List Char :=
  mods.foldl (spliceStep content) content

/-- Insertion into a list sorted by descending start offset. -/
def insertDesc (m : Nat × Nat) : List (Nat × Nat) → List (Nat × Nat)
  | [] => [m]
  | x :: xs => if x.1 ≤ m.1 then m :: x :: xs else x :: insertDesc m xs

/-- `modifications.sort((a, b) => b.start - a.start)` (src/index.ts:364):
sort by descending start offset (distinct properties of a parse tree have
distinct start offsets, so tie order is immaterial). -/
def sortDesc (l : List (Nat × Nat)) : List (Nat × Nat) :=
  l.foldr insertDesc []

/-- One iteration of the `arg.properties.forEach` of `removeUnusedStyles`
(src/index.ts:340-352): mark `[getStart, getEnd)` when the property is an
identifier-keyed property assignment whose name is in `unusedNames`. -/
def modHead (unusedNames : List String) (p : Node) : List (Nat × Nat) :=
  match p with
  | .propAssign (.ident t) _ s e =>
    if listHas unusedNames t then [(s, e)] else []
  | _ => []

/-- The whole `arg.properties.forEach` loop of `removeUnusedStyles`. -/
def modsOfProps (unusedNames : List String) : NodeList → List (Nat × Nat)
  | .nil => []
  | .cons p ps => modHead unusedNames p ++ modsOfProps unusedNames ps

/-- Modifications contributed by one visited node in `removeUnusedStyles`. -/
def modsHere (unusedNames : List String) (n : Node) : List (Nat × Nat) :=
  match createCallProps n with
  | some props => modsOfProps unusedNames props
  | none => []

/-- `removeUnusedStyles` (src/index.ts:311-394).  `readResult` is the fresh
`readFile` result and `ast` the tree parsed from it.  Returns
`some newContent` when the method writes `newContent` and returns `true`;
`none` when it returns `false` without writing (unreadable or empty
content, or an empty modification list). -/
def removeUnusedStyles (readResult : Option (List Char)) (ast : Node)
    (unusedStyles : List StyleDefinition) : Option (List Char) :=
  match readResult with
  | none => none
  | some content =>
    if content = [] then none
    else
      let unusedNames := unusedStyles.map (fun s => s.name)
      let mods := collectList (modsHere unusedNames) (preNodes ast)
      if mods = [] then none
      else some (applyMods content (sortDesc mods))

/-! ## Specification-side definitions (for the refinement claims) -/

/-- The declaration blocks of the file in visiting order, as the spec
describes them: the object-literal argument of every `StyleSheet.create`
call (§4.2 of the spec, "extract from all of them"). -/
def createBlocks (ast : Node) : List NodeList :=
  (preNodes ast).filterMap createCallProps

/-- Spec §4.2: the `StyleDeclaration` of one direct, identifier-keyed
property assignment; computed keys, spreads and other property forms yield
nothing. -/
def declOfProp (content : List Char) (p : Node) : Option StyleDefinition :=
  match p with
  | .propAssign (.ident t) _ s e =>
    some { name := t, startLine := getLineNumber content s,
           endLine := getLineNumber content e }
  | _ => none

/-- Spec §4.2 read declaratively: for every declaration block, the
declarations of its identifier-keyed direct properties, blocks in document
(visiting) order. -/
def specDefinedStyles (content : List Char) (ast : Node) : List StyleDefinition :=
  collectList (fun ps => ps.toList.filterMap (declOfProp content)) (createBlocks ast)

/-- The identifier key of a direct property assignment, if any. -/
def identKeyOf : Node → Option String
  | .propAssign (.ident t) _ _ _ => some t
  | _ => none

/-- All identifier keys of all declaration blocks, with multiplicity, in
declaration order. -/
def specDeclaredKeys (ast : Node) : List String :=
  collectList (fun ps => ps.toList.filterMap identKeyOf) (createBlocks ast)

/-- Well-formedness of the parser output that the TypeScript compiler
guarantees: `getStart() ≤ getEnd()` on every property-assignment node. -/
def spanOk : Node → Bool
  | .propAssign _ _ s e => decide (s ≤ e)
  | _ => true

/-- Every node of the tree has a well-formed span. -/
def wfSpans (ast : Node) : Bool :=
  (preNodes ast).all spanOk

/-- `true` iff the text contains a comma immediately followed by a closing
brace. -/
def hasCommaBrace : List Char → Bool
  | c1 :: c2 :: rest => (c1 = ',' && c2 = '}') || hasCommaBrace (c2 :: rest)
  | _ => false

/-- The file contains a variable declaration `const a = styles` (in any
position): the alias premise of spec property P6. -/
def isAliasDeclFor (a : String) : Node → Bool
  | .varDeclInit (.ident b) (.ident t) => b = a && t = "styles"
  | _ => false

def hasAliasDecl (a : String) (ast : Node) : Bool :=
  (preNodes ast).any (isAliasDeclFor a)

/-- The file contains a property access `obj.nm` (identifier dot
identifier) somewhere. -/
def isPropAccessOf (obj nm : String) : Node → Bool
  | .propAccess (.ident o) (.ident m) => o = obj && m = nm
  | _ => false

def hasPropAccess (obj nm : String) (ast : Node) : Bool :=
  (preNodes ast).any (isPropAccessOf obj nm)

/-! ## Concrete example files

These model small source files together with the syntax tree the TypeScript
parser produces for them; the `propAssign` offsets are the `getStart`/
`getEnd` character offsets of the properties inside the given contents. -/

/-- The characters of `StyleSheet.create({a:{},b:{},})` — an idiomatic
block whose last property carries a trailing comma.  Offsets: property
`a:{}` spans `[19, 23)`, property `b:{}` spans `[24, 28)`. -/
def ceContent : List Char :=
  ['S', 't', 'y', 'l', 'e', 'S', 'h', 'e', 'e', 't', '.', 'c', 'r', 'e',
   'a', 't', 'e', '(', '{', 'a', ':', '{', '}', ',', 'b', ':', '{', '}',
   ',', '}', ')']

/-- The parse tree of `ceContent`. -/
def ceAst : Node :=
  Node.call (Node.propAccess (Node.ident "StyleSheet") (Node.ident "create"))
    (NodeList.cons
      (Node.objLit
        (NodeList.cons
          (Node.propAssign (Node.ident "a") (Node.objLit NodeList.nil) 19 23)
          (NodeList.cons
            (Node.propAssign (Node.ident "b") (Node.objLit NodeList.nil) 24 28)
            NodeList.nil)))
      NodeList.nil)

/-- Removal request for the declaration `b` of `ceContent`. -/
def ceTargets : List StyleDefinition :=
  [{ name := "b", startLine := 1, endLine := 1 }]

/-- `StyleSheet.create({a:{},})` — the rewrite output for removing `b`
from `ceContent`: characters 0–23 of `ceContent` followed by its
characters 29–30. -/
def ceOut : List Char :=
  ['S', 't', 'y', 'l', 'e', 'S', 'h', 'e', 'e', 't', '.', 'c', 'r', 'e',
   'a', 't', 'e', '(', '{', 'a', ':', '{', '}', ',', '}', ')']

/-- The `ScanResult` of scanning `ceContent` (no usages anywhere). -/
def ceScan : StyleUsage :=
  { file := "f.tsx"
    definedStyles := [{ name := "a", startLine := 1, endLine := 1 },
                      { name := "b", startLine := 1, endLine := 1 }]
    usedStyles := []
    unusedStyles := [{ name := "a", startLine := 1, endLine := 1 },
                     { name := "b", startLine := 1, endLine := 1 }] }

/-- The characters of `StyleSheet.create({a: x, a: y})` — the same
identifier key assigned twice.  Property `a: x` spans `[19, 23)`,
property `a: y` spans `[25, 29)`. -/
def dupContent : List Char :=
  ['S', 't', 'y', 'l', 'e', 'S', 'h', 'e', 'e', 't', '.', 'c', 'r', 'e',
   'a', 't', 'e', '(', '{', 'a', ':', ' ', 'x', ',', ' ', 'a', ':', ' ',
   'y', '}', ')']

/-- The parse tree of `dupContent`. -/
def dupAst : Node :=
  Node.call (Node.propAccess (Node.ident "StyleSheet") (Node.ident "create"))
    (NodeList.cons
      (Node.objLit
        (NodeList.cons
          (Node.propAssign (Node.ident "a") (Node.ident "x") 19 23)
          (NodeList.cons
            (Node.propAssign (Node.ident "a") (Node.ident "y") 25 29)
            NodeList.nil)))
      NodeList.nil)

/-- The characters of `styles.foo`. -/
def usedContent : List Char :=
  ['s', 't', 'y', 'l', 'e', 's', '.', 'f', 'o', 'o']

/-- The parse tree of `usedContent`: a source file holding an expression
statement around the property access, and no declaration block at all. -/
def usedAst : Node :=
  Node.other
    (NodeList.cons
      (Node.other
        (NodeList.cons
          (Node.propAccess (Node.ident "styles") (Node.ident "foo"))
          NodeList.nil))
      NodeList.nil)

/-- A file in which the access `s.title` appears BEFORE the alias
declaration `const s = styles` (statement order in the child list). -/
def aliasAst : Node :=
  Node.other
    (NodeList.cons
      (Node.other
        (NodeList.cons
          (Node.propAccess (Node.ident "s") (Node.ident "title"))
          NodeList.nil))
      (NodeList.cons
        (Node.varDeclInit (Node.ident "s") (Node.ident "styles"))
        NodeList.nil))

/-! ## Helper lemmas -/

theorem listHas_iff_mem {x : String} : ∀ {l : List String}, listHas l x = true ↔ x ∈ l
  | [] => by simp [listHas]
  | y :: ys => by
      simp only [listHas, List.mem_cons]
      by_cases h : y = x
      · subst h
        simp
      · simp only [if_neg h, listHas_iff_mem (l := ys)]
        constructor
        · exact Or.inr
        · rintro (rfl | hx)
          · exact absurd rfl h
          · exact hx

theorem listHas_eq_decide (l : List String) (x : String) :
    listHas l x = decide (x ∈ l) := by
  cases hb : listHas l x
  · have : ¬ x ∈ l := fun hm => by
      rw [← listHas_iff_mem] at hm
      rw [hm] at hb
      cases hb
    simp [this]
  · have := listHas_iff_mem.mp hb
    simp [this]

theorem mem_collectList {α β : Type} {f : α → List β} {b : β} :
    ∀ {l : List α}, b ∈ collectList f l ↔ ∃ a ∈ l, b ∈ f a
  | [] => by simp [collectList]
  | x :: xs => by
      simp only [collectList, List.mem_append, List.mem_cons,
        mem_collectList (l := xs)]
      constructor
      · rintro (h | ⟨a, ha, hb⟩)
        · exact ⟨x, Or.inl rfl, h⟩
        · exact ⟨a, Or.inr ha, hb⟩
      · rintro ⟨a, (rfl | ha), hb⟩
        · exact Or.inl hb
        · exact Or.inr ⟨a, ha, hb⟩

theorem collectList_eq_nil {α β : Type} {f : α → List β} :
    ∀ {l : List α}, (∀ a ∈ l, f a = []) → collectList f l = []
  | [], _ => rfl
  | x :: xs, h => by
      rw [collectList, h x (List.mem_cons_self x xs), List.nil_append]
      exact collectList_eq_nil (fun a ha => h a (List.mem_cons_of_mem x ha))

theorem collectList_map {α β γ : Type} (g : β → γ) (f : α → List β) :
    ∀ l : List α, (collectList f l).map g = collectList (fun a => (f a).map g) l
  | [] => rfl
  | x :: xs => by
      simp [collectList, collectList_map g f xs]

theorem mem_dedupFirstAux {a : String} :
    ∀ {l seen : List String},
      a ∈ dedupFirstAux seen l ↔ a ∈ l ∧ ¬ a ∈ seen
  | [], seen => by simp [dedupFirstAux]
  | x :: xs, seen => by
      simp only [dedupFirstAux]
      split
      · rename_i hseen
        rw [mem_dedupFirstAux (l := xs)]
        have hx : x ∈ seen := listHas_iff_mem.mp hseen
        simp only [List.mem_cons]
        constructor
        · rintro ⟨ha, hns⟩
          exact ⟨Or.inr ha, hns⟩
        · rintro ⟨(rfl | ha), hns⟩
          · exact absurd hx hns
          · exact ⟨ha, hns⟩
      · rename_i hseen
        have hx : ¬ x ∈ seen := fun hm => hseen (listHas_iff_mem.mpr hm)
        simp only [List.mem_cons, mem_dedupFirstAux (l := xs), List.mem_append,
          List.mem_singleton]
        constructor
        · rintro (rfl | ⟨ha, hns⟩)
          · exact ⟨Or.inl rfl, hx⟩
          · exact ⟨Or.inr ha, fun hs => hns (Or.inl hs)⟩
        · rintro ⟨(rfl | ha), hns⟩
          · exact Or.inl rfl
          · by_cases hax : a = x
            · exact Or.inl hax
            · exact Or.inr ⟨ha, fun hs => by
                rcases hs with hs | hs
                · exact hns hs
                · exact hax (by simpa using hs)⟩

theorem mem_dedupFirst {a : String} {l : List String} :
    a ∈ dedupFirst l ↔ a ∈ l := by
  simp [dedupFirst, mem_dedupFirstAux]

theorem self_mem_preNodes (n : Node) : n ∈ preNodes n := by
  cases n <;> simp [preNodes]

theorem mem_preNodesL_of_mem_toList {p : Node} :
    ∀ {l : NodeList}, p ∈ l.toList → p ∈ preNodesL l
  | .nil, h => by simp [NodeList.toList] at h
  | .cons x xs, h => by
      simp only [NodeList.toList, List.mem_cons] at h
      simp only [preNodesL, List.mem_append]
      rcases h with rfl | h
      · exact Or.inl (self_mem_preNodes p)
      · exact Or.inr (mem_preNodesL_of_mem_toList h)

mutual
theorem preNodes_trans : ∀ (ast n : Node), n ∈ preNodes ast →
    ∀ m ∈ preNodes n, m ∈ preNodes ast
  | .ident t, n, hn, m, hm => by
      simp only [preNodes, List.mem_singleton] at hn
      subst hn; exact hm
  | .strLit t, n, hn, m, hm => by
      simp only [preNodes, List.mem_singleton] at hn
      subst hn; exact hm
  | .call e args, n, hn, m, hm => by
      simp only [preNodes, List.mem_cons, List.mem_append] at hn
      rcases hn with rfl | hn | hn
      · exact hm
      · simp only [preNodes, List.mem_cons, List.mem_append]
        exact Or.inr (Or.inl (preNodes_trans e n hn m hm))
      · simp only [preNodes, List.mem_cons, List.mem_append]
        exact Or.inr (Or.inr (preNodesL_trans args n hn m hm))
  | .propAccess e a, n, hn, m, hm => by
      simp only [preNodes, List.mem_cons, List.mem_append] at hn
      rcases hn with rfl | hn | hn
      · exact hm
      · simp only [preNodes, List.mem_cons, List.mem_append]
        exact Or.inr (Or.inl (preNodes_trans e n hn m hm))
      · simp only [preNodes, List.mem_cons, List.mem_append]
        exact Or.inr (Or.inr (preNodes_trans a n hn m hm))
  | .elemAccess e a, n, hn, m, hm => by
      simp only [preNodes, List.mem_cons, List.mem_append] at hn
      rcases hn with rfl | hn | hn
      · exact hm
      · simp only [preNodes, List.mem_cons, List.mem_append]
        exact Or.inr (Or.inl (preNodes_trans e n hn m hm))
      · simp only [preNodes, List.mem_cons, List.mem_append]
        exact Or.inr (Or.inr (preNodes_trans a n hn m hm))
  | .objLit ps, n, hn, m, hm => by
      simp only [preNodes, List.mem_cons] at hn
      rcases hn with rfl | hn
      · exact hm
      · simp only [preNodes, List.mem_cons]
        exact Or.inr (preNodesL_trans ps n hn m hm)
  | .propAssign nm v s e, n, hn, m, hm => by
      simp only [preNodes, List.mem_cons, List.mem_append] at hn
      rcases hn with rfl | hn | hn
      · exact hm
      · simp only [preNodes, List.mem_cons, List.mem_append]
        exact Or.inr (Or.inl (preNodes_trans nm n hn m hm))
      · simp only [preNodes, List.mem_cons, List.mem_append]
        exact Or.inr (Or.inr (preNodes_trans v n hn m hm))
  | .varDeclInit nm i, n, hn, m, hm => by
      simp only [preNodes, List.mem_cons, List.mem_append] at hn
      rcases hn with rfl | hn | hn
      · exact hm
      · simp only [preNodes, List.mem_cons, List.mem_append]
        exact Or.inr (Or.inl (preNodes_trans nm n hn m hm))
      · simp only [preNodes, List.mem_cons, List.mem_append]
        exact Or.inr (Or.inr (preNodes_trans i n hn m hm))
  | .varDeclNoInit nm, n, hn, m, hm => by
      simp only [preNodes, List.mem_cons] at hn
      rcases hn with rfl | hn
      · exact hm
      · simp only [preNodes, List.mem_cons]
        exact Or.inr (preNodes_trans nm n hn m hm)
  | .spreadAssign e, n, hn, m, hm => by
      simp only [preNodes, List.mem_cons] at hn
      rcases hn with rfl | hn
      · exact hm
      · simp only [preNodes, List.mem_cons]
        exact Or.inr (preNodes_trans e n hn m hm)
  | .jsxSpread e, n, hn, m, hm => by
      simp only [preNodes, List.mem_cons] at hn
      rcases hn with rfl | hn
      · exact hm
      · simp only [preNodes, List.mem_cons]
        exact Or.inr (preNodes_trans e n hn m hm)
  | .other cs, n, hn, m, hm => by
      simp only [preNodes, List.mem_cons] at hn
      rcases hn with rfl | hn
      · exact hm
      · simp only [preNodes, List.mem_cons]
        exact Or.inr (preNodesL_trans cs n hn m hm)

theorem preNodesL_trans : ∀ (l : NodeList) (n : Node), n ∈ preNodesL l →
    ∀ m ∈ preNodes n, m ∈ preNodesL l
  | .nil, n, hn, m, hm => by simp [preNodesL] at hn
  | .cons x xs, n, hn, m, hm => by
      simp only [preNodesL, List.mem_append] at hn ⊢
      rcases hn with hn | hn
      · exact Or.inl (preNodes_trans x n hn m hm)
      · exact Or.inr (preNodesL_trans xs n hn m hm)
end

theorem createCallProps_some {n : Node} {props : NodeList}
    (h : createCallProps n = some props) :
    ∃ rest, n = Node.call
      (Node.propAccess (Node.ident "StyleSheet") (Node.ident "create"))
      (NodeList.cons (Node.objLit props) rest) := by
  cases n <;> try exact Option.noConfusion h
  case call callee args =>
    cases callee <;> try exact Option.noConfusion h
    case propAccess ce cm =>
      cases ce <;> try exact Option.noConfusion h
      case ident obj =>
        cases cm <;> try exact Option.noConfusion h
        case ident meth =>
          simp only [createCallProps] at h
          split at h
          · split at h
            · rename_i hobj hmeth
              subst hobj; subst hmeth
              cases args with
              | nil => exact Option.noConfusion h
              | cons a rest =>
                cases a <;> try exact Option.noConfusion h
                case objLit ps =>
                  have hps : ps = props := Option.some.inj h
                  subst hps
                  exact ⟨rest, rfl⟩
            · exact Option.noConfusion h
          · exact Option.noConfusion h

theorem prop_mem_preNodes {n : Node} {props : NodeList} {p : Node}
    (hc : createCallProps n = some props) (hp : p ∈ props.toList) :
    p ∈ preNodes n := by
  obtain ⟨rest, rfl⟩ := createCallProps_some hc
  simp only [preNodes, preNodesL, List.mem_cons, List.mem_append]
  exact Or.inr (Or.inr (Or.inl (Or.inr (mem_preNodesL_of_mem_toList hp))))

theorem declHead_eq_toList (content : List Char) (p : Node) :
    declHead content p = (declOfProp content p).toList := by
  cases p
  case propAssign nm v s e => cases nm <;> rfl
  all_goals rfl

theorem declsOfProps_eq (content : List Char) :
    ∀ ps : NodeList,
      declsOfProps content ps = ps.toList.filterMap (declOfProp content)
  | .nil => rfl
  | .cons p ps => by
      rw [declsOfProps, NodeList.toList, List.filterMap_cons,
        declsOfProps_eq content ps, declHead_eq_toList]
      cases declOfProp content p <;> simp

theorem declOfProp_some {content : List Char} {p : Node} {d : StyleDefinition}
    (h : declOfProp content p = some d) :
    ∃ t v s e, p = Node.propAssign (Node.ident t) v s e ∧
      d = { name := t, startLine := getLineNumber content s,
            endLine := getLineNumber content e } := by
  cases p <;> try exact Option.noConfusion h
  case propAssign nm v s e =>
    cases nm <;> try exact Option.noConfusion h
    case ident t =>
      have h2 : some { name := t, startLine := getLineNumber content s,
                       endLine := getLineNumber content e } = some d := h
      exact ⟨t, v, s, e, rfl, (Option.some.inj h2).symm⟩

theorem modHead_eq_nil {names : List String} (content : List Char) {p : Node}
    (h : ∀ d ∈ declHead content p, listHas names d.name = false) :
    modHead names p = [] := by
  cases p
  case propAssign nm v s e =>
    cases nm
    case ident t =>
      have ht := h { name := t, startLine := getLineNumber content s,
                     endLine := getLineNumber content e }
        (List.mem_singleton.mpr rfl)
      show (if listHas names t = true then [(s, e)] else []) = []
      simp only [ht]
      rfl
    all_goals rfl
  all_goals rfl

theorem modHead_mem {names : List String} {m : Nat × Nat} {p : Node}
    (h : m ∈ modHead names p) :
    ∃ t v, p = Node.propAssign (Node.ident t) v m.1 m.2 := by
  cases p <;> try exact absurd h (List.not_mem_nil m)
  case propAssign nm v s e =>
    cases nm <;> try exact absurd h (List.not_mem_nil m)
    case ident t =>
      have h2 : m ∈ (if listHas names t = true then [(s, e)] else []) := h
      split at h2
      · have hm := List.mem_singleton.mp h2
        subst hm
        exact ⟨t, v, rfl⟩
      · exact absurd h2 (List.not_mem_nil m)

theorem modsOfProps_eq_nil {names : List String} (content : List Char) :
    ∀ {ps : NodeList},
      (∀ d ∈ declsOfProps content ps, listHas names d.name = false) →
      modsOfProps names ps = []
  | .nil, _ => rfl
  | .cons p ps, h => by
      rw [modsOfProps,
        modHead_eq_nil content (fun d hd => h d (by
          rw [declsOfProps]
          exact List.mem_append_left _ hd)),
        List.nil_append]
      exact modsOfProps_eq_nil content (fun d hd => h d (by
        rw [declsOfProps]
        exact List.mem_append_right _ hd))

theorem modsOfProps_mem_span {names : List String} {m : Nat × Nat} :
    ∀ {ps : NodeList}, m ∈ modsOfProps names ps →
      ∃ t v, Node.propAssign (Node.ident t) v m.1 m.2 ∈ ps.toList
  | .nil, h => absurd h (List.not_mem_nil m)
  | .cons p ps, h => by
      rw [modsOfProps] at h
      rcases List.mem_append.mp h with h | h
      · obtain ⟨t, v, rfl⟩ := modHead_mem h
        exact ⟨t, v, by rw [NodeList.toList]; exact List.mem_cons_self _ _⟩
      · obtain ⟨t, v, hp⟩ := modsOfProps_mem_span h
        exact ⟨t, v, by rw [NodeList.toList]; exact List.mem_cons_of_mem _ hp⟩

theorem modsHere_eq_nil {names : List String} (content : List Char) {n : Node}
    (h : ∀ d ∈ declsHere content n, listHas names d.name = false) :
    modsHere names n = [] := by
  unfold modsHere
  unfold declsHere at h
  cases hcc : createCallProps n with
  | none => rfl
  | some props =>
    rw [hcc] at h
    exact modsOfProps_eq_nil content h

theorem spanOk_of_wf {ast n : Node} (hwf : wfSpans ast = true)
    (hn : n ∈ preNodes ast) : spanOk n = true := by
  unfold wfSpans at hwf
  exact List.all_eq_true.mp hwf n hn

theorem mods_span_le {ast : Node} {names : List String} {m : Nat × Nat}
    (hwf : wfSpans ast = true)
    (hm : m ∈ collectList (modsHere names) (preNodes ast)) : m.1 ≤ m.2 := by
  obtain ⟨n, hn, hmn⟩ := mem_collectList.mp hm
  unfold modsHere at hmn
  cases hcc : createCallProps n with
  | none => rw [hcc] at hmn; cases hmn
  | some props =>
    rw [hcc] at hmn
    obtain ⟨t, v, hp⟩ := modsOfProps_mem_span hmn
    have hpre : Node.propAssign (Node.ident t) v m.1 m.2 ∈ preNodes ast :=
      preNodes_trans ast n hn _ (prop_mem_preNodes hcc hp)
    have hok := spanOk_of_wf hwf hpre
    simpa [spanOk] using hok

theorem getLineNumber_mono (content : List Char) {a b : Nat} (h : a ≤ b) :
    getLineNumber content a ≤ getLineNumber content b := by
  unfold getLineNumber
  have h1 : content.take a = (content.take b).take a := by
    rw [List.take_take, Nat.min_eq_left h]
  rw [h1]
  exact Nat.add_le_add_right
    ((List.take_sublist a (content.take b)).countP_le _) 1

theorem adjustMod_le (content : List Char) {m : Nat × Nat} (h : m.1 ≤ m.2) :
    (adjustMod content m).1 ≤ (adjustMod content m).2 := by
  simp only [adjustMod]
  split
  · dsimp only
    omega
  · split <;> dsimp only <;> omega

theorem spliceStep_length_le (content acc : List Char) {m : Nat × Nat}
    (h : m.1 ≤ m.2) : (spliceStep content acc m).length ≤ acc.length := by
  unfold spliceStep
  have hle := adjustMod_le content h
  simp only [List.length_append, List.length_take, List.length_drop]
  omega

theorem foldl_splice_length (content : List Char) :
    ∀ (mods : List (Nat × Nat)) (acc : List Char),
      (∀ m ∈ mods, m.1 ≤ m.2) →
      (List.foldl (spliceStep content) acc mods).length ≤ acc.length
  | [], acc, _ => le_refl _
  | m :: ms, acc, h => by
      simp only [List.foldl_cons]
      exact le_trans
        (foldl_splice_length content ms _
          (fun x hx => h x (List.mem_cons_of_mem m hx)))
        (spliceStep_length_le content acc (h m (List.mem_cons_self m ms)))

theorem mem_insertDesc {m x : Nat × Nat} :
    ∀ {l : List (Nat × Nat)}, x ∈ insertDesc m l ↔ x = m ∨ x ∈ l
  | [] => by simp [insertDesc]
  | y :: ys => by
      simp only [insertDesc]
      split
      · simp [List.mem_cons]
      · simp only [List.mem_cons, mem_insertDesc (l := ys)]
        tauto

theorem mem_sortDesc {x : Nat × Nat} :
    ∀ {l : List (Nat × Nat)}, x ∈ sortDesc l ↔ x ∈ l
  | [] => by simp [sortDesc]
  | y :: ys => by
      show x ∈ insertDesc y (List.foldr insertDesc [] ys) ↔ x ∈ y :: ys
      rw [mem_insertDesc]
      rw [show List.foldr insertDesc [] ys = sortDesc ys from rfl,
        mem_sortDesc (l := ys)]
      simp [List.mem_cons, eq_comm]

theorem isAliasDeclFor_eq {a : String} {n : Node}
    (h : isAliasDeclFor a n = true) :
    n = Node.varDeclInit (Node.ident a) (Node.ident "styles") := by
  cases n <;> try exact Bool.noConfusion h
  case varDeclInit nm i =>
    cases nm <;> try exact Bool.noConfusion h
    case ident b =>
      cases i <;> try exact Bool.noConfusion h
      case ident t =>
        have h2 : (decide (b = a) && decide (t = "styles")) = true := h
        simp only [Bool.and_eq_true, decide_eq_true_eq] at h2
        rw [h2.1, h2.2]

theorem isPropAccessOf_eq {obj nm : String} {n : Node}
    (h : isPropAccessOf obj nm n = true) :
    n = Node.propAccess (Node.ident obj) (Node.ident nm) := by
  cases n <;> try exact Bool.noConfusion h
  case propAccess e a =>
    cases e <;> try exact Bool.noConfusion h
    case ident o =>
      cases a <;> try exact Bool.noConfusion h
      case ident m =>
        have h2 : (decide (o = obj) && decide (m = nm)) = true := h
        simp only [Bool.and_eq_true, decide_eq_true_eq] at h2
        rw [h2.1, h2.2]

theorem alias_mem_collectAliases {a : String} {ast : Node}
    (h : hasAliasDecl a ast = true) : a ∈ collectAliases ast := by
  obtain ⟨n, hn, hd⟩ := List.any_eq_true.mp h
  obtain rfl := isAliasDeclFor_eq hd
  apply mem_collectList.mpr
  refine ⟨_, hn, ?_⟩
  show a ∈ (if ("styles" : String) = "styles" then [a] else [])
  simp

theorem usageHere_propAccess (aliases : List String) (obj m : String)
    (h : obj = "styles" ∨ listHas aliases obj = true) :
    m ∈ usageHere aliases (Node.propAccess (Node.ident obj) (Node.ident m)) := by
  have heq : usageHere aliases (Node.propAccess (Node.ident obj) (Node.ident m)) =
      (((if obj = "styles" then [m]
         else if listHas aliases obj = true then [m] else []) ++ []) ++ []) ++ [] := rfl
  rw [heq]
  by_cases hs : obj = "styles"
  · simp [hs]
  · rcases h with h | h
    · exact absurd h hs
    · simp [hs, h]

theorem mem_extractUsedStyles {ast : Node} {nm : String} {n : Node}
    (hn : n ∈ preNodes ast) (hu : nm ∈ usageHere (collectAliases ast) n) :
    nm ∈ extractUsedStyles ast := by
  unfold extractUsedStyles
  rw [mem_dedupFirst]
  exact mem_collectList.mpr ⟨n, hn, hu⟩

theorem collect_decls_eq (content : List Char) :
    ∀ l : List Node,
      collectList (declsHere content) l =
        collectList (fun ps => ps.toList.filterMap (declOfProp content))
          (l.filterMap createCallProps)
  | [] => rfl
  | n :: ns => by
      rw [collectList, List.filterMap_cons]
      cases hcc : createCallProps n with
      | none =>
        simp only [declsHere, hcc, List.nil_append]
        exact collect_decls_eq content ns
      | some props =>
        simp only [declsHere, hcc, collectList]
        rw [declsOfProps_eq, collect_decls_eq content ns]

theorem map_name_filterMap (content : List Char) :
    ∀ l : List Node,
      (l.filterMap (declOfProp content)).map (fun d => d.name) =
        l.filterMap identKeyOf
  | [] => rfl
  | p :: ps => by
      rw [List.filterMap_cons, List.filterMap_cons]
      cases p
      case propAssign nm v s e =>
        cases nm
        case ident t =>
          show ({ name := t, startLine := getLineNumber content s,
                  endLine := getLineNumber content e } ::
              ps.filterMap (declOfProp content)).map (fun d => d.name) =
            t :: ps.filterMap identKeyOf
          rw [List.map_cons, map_name_filterMap content ps]
        all_goals exact map_name_filterMap content ps
      all_goals exact map_name_filterMap content ps

/-! ## Claim theorems -/

/-- Claim C1: for every scan that returns a result, the unused sequence
equals the defined sequence filtered to the declarations whose name is not
contained in the used set, and it preserves the relative order of the
defined sequence (it is a sublist of it). -/
theorem scanFile_unused_eq_filter (ign : Bool) (rr : Option (List Char))
    (p : String) (ast : Node) (r : StyleUsage)
    (h : scanFile ign rr p ast = some r) :
    r.unusedStyles =
      r.definedStyles.filter (fun d => !(decide (d.name ∈ r.usedStyles))) ∧
      List.Sublist r.unusedStyles r.definedStyles := by
  unfold scanFile at h
  split at h
  · exact Option.noConfusion h
  · split at h
    · exact Option.noConfusion h
    · split at h
      · exact Option.noConfusion h
      · have hr := Option.some.inj h
        subst hr
        constructor
        · apply List.filter_congr
          intro d _
          rw [listHas_eq_decide]
        · exact List.filter_sublist _

/-- Witness for C1 at a concrete file: scanning `ceContent` yields
`ceScan`, whose unused sequence is the filtered defined sequence. -/
theorem scanFile_unused_eq_filter_witness :
    scanFile false (some ceContent) "f.tsx" ceAst = some ceScan ∧
      (ceScan.unusedStyles =
          ceScan.definedStyles.filter
            (fun d => !(decide (d.name ∈ ceScan.usedStyles))) ∧
        List.Sublist ceScan.unusedStyles ceScan.definedStyles) :=
  ⟨by decide,
    scanFile_unused_eq_filter false (some ceContent) "f.tsx" ceAst ceScan
      (by decide)⟩

/-- Claim C2 counterexample: rewriting the idiomatic trailing-comma block
`StyleSheet.create({a:{},b:{},})` to remove `b` succeeds, and the output
`StyleSheet.create({a:{},})` contains a comma immediately before the
declaration block's closing brace — the code has no defensive
normalization pass to remove it (src/index.ts:361-389 splices intervals
and writes the result directly). -/
theorem removeUnusedStyles_comma_before_brace :
    removeUnusedStyles (some ceContent) ceAst ceTargets = some ceOut ∧
      hasCommaBrace ceOut = true := by
  decide

/-- Claim C2 amended: a successful rewrite only deletes characters — the
output is the input with the computed intervals spliced out and nothing is
inserted or normalized afterwards, so the output is never longer than the
input (for trees with well-formed property spans); in particular a
pre-existing trailing comma before the block's closing brace survives, as
the counterexample shows. -/
theorem removeUnusedStyles_only_deletes (content : List Char) (ast : Node)
    (targets : List StyleDefinition) (out : List Char)
    (hwf : wfSpans ast = true)
    (h : removeUnusedStyles (some content) ast targets = some out) :
    out.length ≤ content.length := by
  have h0 : removeUnusedStyles (some content) ast targets =
      (if content = [] then none
       else if collectList (modsHere (targets.map (fun s => s.name)))
           (preNodes ast) = [] then none
       else some (applyMods content
         (sortDesc (collectList (modsHere (targets.map (fun s => s.name)))
           (preNodes ast))))) := rfl
  rw [h0] at h
  split at h
  · exact Option.noConfusion h
  · split at h
    · exact Option.noConfusion h
    · have hout := Option.some.inj h
      subst hout
      unfold applyMods
      apply foldl_splice_length
      intro m hm
      exact mods_span_le hwf (mem_sortDesc.mp hm)

/-- Witness for the amended C2 at the counterexample file. -/
theorem removeUnusedStyles_only_deletes_witness :
    wfSpans ceAst = true ∧ ceOut.length ≤ ceContent.length :=
  ⟨by decide,
    removeUnusedStyles_only_deletes ceContent ceAst ceTargets ceOut
      (by decide) (by decide)⟩

/-- Claim C3: when none of the requested target names is present as an
identifier-keyed declaration in any `StyleSheet.create` block of the
current content (no extracted declaration bears a target name), the
rewrite returns failure and no write happens (`none`: the method returns
`false` at the `modifications.length === 0` check, before `writeFileSync`). -/
theorem removeUnusedStyles_no_target_none (content : List Char) (ast : Node)
    (targets : List StyleDefinition)
    (h : ∀ d ∈ extractDefinedStyles content ast,
      ¬ d.name ∈ targets.map (fun t => t.name)) :
    removeUnusedStyles (some content) ast targets = none := by
  have h0 : removeUnusedStyles (some content) ast targets =
      (if content = [] then none
       else if collectList (modsHere (targets.map (fun s => s.name)))
           (preNodes ast) = [] then none
       else some (applyMods content
         (sortDesc (collectList (modsHere (targets.map (fun s => s.name)))
           (preNodes ast))))) := rfl
  have hmods : collectList (modsHere (targets.map (fun s => s.name)))
      (preNodes ast) = [] := by
    apply collectList_eq_nil
    intro n hn
    apply modsHere_eq_nil content
    intro d hd
    have hnot := h d (mem_collectList.mpr ⟨n, hn, hd⟩)
    rw [listHas_eq_decide]
    exact decide_eq_false hnot
  rw [h0, hmods]
  split <;> rfl

/-- Witness for C3: requesting removal of the absent name `zed` from the
duplicate-key file fails without writing. -/
theorem removeUnusedStyles_no_target_none_witness :
    (∀ d ∈ extractDefinedStyles dupContent dupAst,
      ¬ d.name ∈ ([{ name := "zed", startLine := 1, endLine := 1 }] :
          List StyleDefinition).map (fun t => t.name)) ∧
    removeUnusedStyles (some dupContent) dupAst
      [{ name := "zed", startLine := 1, endLine := 1 }] = none :=
  ⟨by decide,
    removeUnusedStyles_no_target_none dupContent dupAst _ (by decide)⟩

/-- Claim C4: rewriting with the empty target sequence is a no-op for
every read result and every tree: the modification list is empty, the
method returns `false` before any write (`none`), and the file content is
left byte-identical. -/
theorem removeUnusedStyles_empty_targets (rr : Option (List Char))
    (ast : Node) : removeUnusedStyles rr ast [] = none := by
  cases rr with
  | none => rfl
  | some content =>
    have h0 : removeUnusedStyles (some content) ast [] =
        (if content = [] then none
         else if collectList (modsHere (([] : List StyleDefinition).map
             (fun s => s.name))) (preNodes ast) = [] then none
         else some (applyMods content
           (sortDesc (collectList (modsHere (([] : List StyleDefinition).map
             (fun s => s.name))) (preNodes ast))))) := rfl
    have hmods : collectList (modsHere (([] : List StyleDefinition).map
        (fun s => s.name))) (preNodes ast) = [] := by
      apply collectList_eq_nil
      intro n hn
      apply modsHere_eq_nil content
      intro d hd
      rfl
    rw [h0, hmods]
    split <;> rfl

/-- Claim C5 counterexample: a successfully-read but empty content
(`some []`, the empty string) on a non-ignored path is neither an ignore
hit nor a read failure, yet `scanFile` returns `none`, because JS
`if (!content)` is taken on the empty string too; so "returns a ScanResult
for every path whose content is successfully read" is false. -/
theorem scanFile_empty_content_none :
    scanFile false (some []) "f.tsx" (Node.other NodeList.nil) = none := rfl

/-- Claim C5 amended: `scanFile` returns absent exactly when the path is
excluded by the ignore predicate, the content cannot be read, or the read
content is the empty string; for every non-empty read content it returns a
ScanResult, even when `defined` is empty. -/
theorem scanFile_none_iff (ign : Bool) (rr : Option (List Char)) (p : String)
    (ast : Node) :
    scanFile ign rr p ast = none ↔
      (ign = true ∨ rr = none ∨ rr = some []) := by
  cases ign
  · cases rr with
    | none => simp [scanFile]
    | some content =>
      cases content with
      | nil => simp [scanFile]
      | cons c cs => simp [scanFile]
  · simp [scanFile]

/-- Claim C6: alias transparency — whenever the file contains a variable
declaration whose initializer is exactly the identifier `styles`
(anywhere: the alias pass runs over the whole tree before usage
collection, so position is irrelevant), a property access `alias.n` is
recorded as a usage of `n`, exactly as `styles.n` is. -/
theorem alias_transparent_usage (ast : Node) (a nm : String)
    (hA : hasAliasDecl a ast = true) :
    (hasPropAccess a nm ast = true → nm ∈ extractUsedStyles ast) ∧
    (hasPropAccess "styles" nm ast = true → nm ∈ extractUsedStyles ast) := by
  have hal : a ∈ collectAliases ast := alias_mem_collectAliases hA
  constructor
  · intro hP
    obtain ⟨n, hn, hd⟩ := List.any_eq_true.mp hP
    obtain rfl := isPropAccessOf_eq hd
    exact mem_extractUsedStyles hn
      (usageHere_propAccess _ a nm (Or.inr (listHas_iff_mem.mpr hal)))
  · intro hP
    obtain ⟨n, hn, hd⟩ := List.any_eq_true.mp hP
    obtain rfl := isPropAccessOf_eq hd
    exact mem_extractUsedStyles hn
      (usageHere_propAccess _ "styles" nm (Or.inl rfl))

/-- Witness for C6 at a concrete file in which the access `s.title` comes
BEFORE the declaration `const s = styles`. -/
theorem alias_transparent_usage_witness :
    hasAliasDecl "s" aliasAst = true ∧
      hasPropAccess "s" "title" aliasAst = true ∧
      "title" ∈ extractUsedStyles aliasAst :=
  ⟨by decide, by decide,
    (alias_transparent_usage aliasAst "s" "title" (by decide)).1 (by decide)⟩

/-- Claim C7: the declaration extractor emits one StyleDeclaration — with
1-indexed start and end lines taken from the property node's start and end
offsets — for exactly the identifier-keyed, direct property assignments of
the object-literal argument of every `StyleSheet.create` call, block after
block in visiting (document) order; computed keys, spreads and every other
property form yield nothing. -/
theorem extractDefinedStyles_eq_spec (content : List Char) (ast : Node) :
    extractDefinedStyles content ast = specDefinedStyles content ast ∧
    (∀ d, d ∈ extractDefinedStyles content ast ↔
      ∃ ps ∈ createBlocks ast, ∃ p ∈ ps.toList,
        declOfProp content p = some d) := by
  have he : extractDefinedStyles content ast = specDefinedStyles content ast :=
    collect_decls_eq content (preNodes ast)
  refine ⟨he, fun d => ?_⟩
  rw [he]
  unfold specDefinedStyles
  rw [mem_collectList]
  constructor
  · rintro ⟨ps, hps, hd⟩
    exact ⟨ps, hps, List.mem_filterMap.mp hd⟩
  · rintro ⟨ps, hps, p, hp, hdp⟩
    exact ⟨ps, hps, List.mem_filterMap.mpr ⟨p, hp, hdp⟩⟩

/-- Claim C8 counterexample: in `StyleSheet.create({a: x, a: y})` the key
`a` is assigned twice and the extractor emits TWO StyleDeclarations named
`a` (the `forEach` at src/index.ts:98-113 pushes every identifier-keyed
assignment, with no deduplication), refuting "only one StyleDeclaration
for that name is produced (last-write-wins)". -/
theorem extractDefined_duplicate_names :
    (extractDefinedStyles dupContent dupAst).map (fun d => d.name) =
      ["a", "a"] := by
  decide

/-- Claim C8 amended: within one declaration block every identifier-keyed
property assignment produces its own StyleDeclaration — duplicates
included, in declaration order: the emitted name sequence equals the key
sequence of the blocks with multiplicity (no deduplication at all). -/
theorem extractDefined_names_eq_specKeys (content : List Char) (ast : Node) :
    (extractDefinedStyles content ast).map (fun d => d.name) =
      specDeclaredKeys ast := by
  unfold extractDefinedStyles specDeclaredKeys createBlocks
  rw [collect_decls_eq content (preNodes ast), collectList_map]
  congr 1
  funext ps
  exact map_name_filterMap content ps.toList

/-- Claim C9: on every tree whose property spans are well-formed
(`getStart() ≤ getEnd()`, which the parser guarantees), every extracted
StyleDeclaration satisfies `1 ≤ startLine` and `startLine ≤ endLine`. -/
theorem extractDefined_line_bounds (content : List Char) (ast : Node)
    (d : StyleDefinition) (hwf : wfSpans ast = true)
    (hd : d ∈ extractDefinedStyles content ast) :
    1 ≤ d.startLine ∧ d.startLine ≤ d.endLine := by
  obtain ⟨n, hn, hdn⟩ := mem_collectList.mp hd
  cases hcc : createCallProps n with
  | none => simp only [declsHere, hcc] at hdn; exact absurd hdn (List.not_mem_nil d)
  | some props =>
    simp only [declsHere, hcc, declsOfProps_eq] at hdn
    obtain ⟨p, hp, hdp⟩ := List.mem_filterMap.mp hdn
    obtain ⟨t, v, s, e, rfl, rfl⟩ := declOfProp_some hdp
    have hpre := preNodes_trans ast n hn _ (prop_mem_preNodes hcc hp)
    have hse : s ≤ e := by
      have hok := spanOk_of_wf hwf hpre
      simpa [spanOk] using hok
    constructor
    · show 1 ≤ getLineNumber content s
      unfold getLineNumber
      omega
    · exact getLineNumber_mono content hse

/-- Witness for C9 at a concrete file and declaration. -/
theorem extractDefined_line_bounds_witness :
    wfSpans ceAst = true ∧
      ({ name := "a", startLine := 1, endLine := 1 } : StyleDefinition) ∈
        extractDefinedStyles ceContent ceAst ∧
      (1 ≤ ({ name := "a", startLine := 1, endLine := 1 } :
          StyleDefinition).startLine ∧
        ({ name := "a", startLine := 1, endLine := 1 } :
          StyleDefinition).startLine ≤
        ({ name := "a", startLine := 1, endLine := 1 } :
          StyleDefinition).endLine) :=
  ⟨by decide, by decide,
    extractDefined_line_bounds ceContent ceAst _ (by decide) (by decide)⟩

/-- Claim C10: the used set is not restricted to declared names — scanning
the file `styles.foo`, which declares nothing, returns
`usedStyles = ["foo"]` and `definedStyles = []`: every identifier property
accessed on `styles` is recorded whether declared or not, so
`used ⊆ defined` does not hold in general. -/
theorem used_not_subset_defined :
    scanFile false (some usedContent) "f.tsx" usedAst =
      some { file := "f.tsx", definedStyles := [], usedStyles := ["foo"],
             unusedStyles := [] } ∧
      ¬ "foo" ∈ (extractDefinedStyles usedContent usedAst).map
        (fun d => d.name) := by
  decide
